import Mathlib

/-!
Shallow embedding of the `www` static-site generator's content pipeline
(`src/build.rs`, `src/build/djot.rs`, `src/build/djot/biblatex.rs`).

Path components and file names are modelled as `List Char` (Rust `OsString`
bytes over valid UTF-8 compare identically to code-point order); a relative
path is a `List Name` of components.
-/

/-- A file-name / path-component, modelling Rust `OsString`. -/
abbrev Name := List Char

/-- A relative filesystem path as a list of components, modelling Rust
`PathBuf` restricted to normalized relative paths. -/
abbrev RelPath := List Name

/-- Three-way comparison derived from a linear order, modelling Rust `Ord`
on primitive values. -/
def ordCmp {α : Type _} [LinearOrder α] (a b : α) : Ordering :=
  if a < b then .lt else if a = b then .eq else .gt

/-- Lexicographic comparison of lists given a comparison on elements,
modelling Rust's derived `Ord` on sequences (`OsString` bytes, path
components). -/
def lexCmp {α : Type _} (c : α → α → Ordering) : List α → List α → Ordering
  | [], [] => .eq
  | [], _ :: _ => .lt
  | _ :: _, [] => .gt
  | a :: as, b :: bs => (c a b).then (lexCmp c as bs)

/-- Comparison on `Name`s: Rust compares `OsString`s byte-lexicographically. -/
def nameCmp (a b : Name) : Ordering := lexCmp ordCmp a b

/-- Comparison on paths: Rust `Path::cmp` compares components
lexicographically. -/
def pathCmp (a b : RelPath) : Ordering := lexCmp nameCmp a b

/-- `(c _ _).then (d _ _)` on a pair of projections; Rust's
`x.cmp(y).then_with(...)` chaining shape. -/
def prodCmp {α β : Type _} (c : α → α → Ordering) (d : β → β → Ordering) :
    α × β → α × β → Ordering :=
  fun p q => (c p.1 q.1).then (d p.2 q.2)

/-- Laws a comparator must satisfy to define a strict total order. -/
structure CmpLawful {γ : Type _} (c : γ → γ → Ordering) : Prop where
  eq_iff : ∀ a b, c a b = .eq ↔ a = b
  swap_eq : ∀ a b, (c a b).swap = c b a
  lt_trans : ∀ {a b d : γ}, c a b = .lt → c b d = .lt → c a d = .lt

/-! ## Slug model (`src/build.rs`, `ContentSlugStem` / `ContentSlug`) -/

/-- `ContentSlugStem` from `build.rs`: either the distinguished `Index` stem
or an arbitrary name. -/
inductive ContentSlugStem where
  | index : ContentSlugStem
  | other (name : Name) : ContentSlugStem
deriving DecidableEq, Repr

/-- `ContentSlugStem::cmp`: `Index` sorts after every `Other` name
(`build.rs` lines 113-126). -/
def stemCmp : ContentSlugStem → ContentSlugStem → Ordering
  | .index, .index => .eq
  | .other a, .other b => nameCmp a b
  | .index, .other _ => .gt
  | .other _, .index => .lt

/-- Rust `Option::<OsString>::cmp`: `None < Some _`, `Some`s compared by
content. -/
def extCmp : Option Name → Option Name → Ordering
  | none, none => .eq
  | none, some _ => .lt
  | some _, none => .gt
  | some a, some b => nameCmp a b

/-- `ContentSlug` from `build.rs`: parent directory, stem, optional
extension. -/
structure ContentSlug where
  parent : RelPath
  stem : ContentSlugStem
  extension : Option Name
deriving DecidableEq, Repr

/-- `ContentSlug::cmp` (`build.rs` lines 218-226): parent compared in
reverse, then stem, then extension. -/
def ContentSlug.cmp (a b : ContentSlug) : Ordering :=
  ((pathCmp a.parent b.parent).swap).then
    ((stemCmp a.stem b.stem).then (extCmp a.extension b.extension))

/-- Strict order on slugs induced by `ContentSlug::cmp`; the `BTreeMap` key
order. -/
def slugLt (a b : ContentSlug) : Prop := ContentSlug.cmp a b = .lt

/-- Non-strict order on slugs. -/
def slugLe (a b : ContentSlug) : Prop := ContentSlug.cmp a b ≠ .gt

instance (a b : ContentSlug) : Decidable (slugLt a b) := by
  unfold slugLt; infer_instance

instance (a b : ContentSlug) : Decidable (slugLe a b) := by
  unfold slugLe; infer_instance

/-! ## File-name splitting (Rust `std::path` stem/extension semantics) -/

/-- Split a file name at its last `'.'`, returning `(before, after)`;
`none` when the name contains no dot. -/
def splitLastDot : Name → Option (Name × Name)
  | [] => none
  | c :: rest =>
    match splitLastDot rest with
    | some (b, a) => some (c :: b, a)
    | none => if c = '.' then some ([], rest) else none

/-- Rust `rsplit_file_at_dot`: `".."` is all-stem; a name whose only dot
leads is all-stem; otherwise split at the last dot. -/
def rsplitFileAtDot (file : Name) : Option Name × Option Name :=
  if file = ['.', '.'] then (some file, none)
  else
    match splitLastDot file with
    | none => (none, some file)
    | some ([], _) => (some file, none)
    | some (b, a) => (some b, some a)

/-- Rust `Path::file_stem` on a file name (`before.or(after)`); total here
because one side of the split is always present. -/
def fileStem (file : Name) : Name :=
  match rsplitFileAtDot file with
  | (some b, _) => b
  | (none, some a) => a
  | (none, none) => []

/-- Rust `Path::extension` on a file name (`before.and(after)`). -/
def extensionOf (file : Name) : Option Name :=
  match rsplitFileAtDot file with
  | (some _, some a) => some a
  | _ => none

/-- Rust `PathBuf::set_extension` applied to a file name: truncate to the
stem, then append `"." ++ e` when `e` is nonempty. -/
def setExtension (file e : Name) : Name :=
  fileStem file ++ (if e = [] then [] else '.' :: e)

/-! ## Slug construction (`ContentSlug::from_path` / `as_path`,
`build.rs` lines 157-209) -/

/-- `ContentSlug::from_path`: fails when the path has no file name
component. -/
def ContentSlug.fromPath (path : RelPath) : Option ContentSlug :=
  match path.getLast? with
  | none => none
  | some name =>
    some
      { parent := path.dropLast
        stem :=
          if fileStem name = "index".data then ContentSlugStem.index
          else ContentSlugStem.other (fileStem name)
        extension := extensionOf name }

/-- The file name a stem contributes: `"index"` for `Index`, the name
itself for `Other`. -/
def slugStemName (s : ContentSlug) : Name :=
  match s.stem with
  | .index => "index".data
  | .other n => n

/-- `ContentSlug::as_path`: join the stem onto the parent, then
`set_extension` with the slug's extension (empty when absent). -/
def ContentSlug.asPath (s : ContentSlug) : RelPath :=
  s.parent ++ [setExtension (slugStemName s) (s.extension.getD [])]

/-- `ContentSlug::make_subpage_range` (`build.rs` lines 181-209), as the
half-open bound pair used with `BTreeMap::range`. -/
def ContentSlug.makeSubpageRange (s : ContentSlug) : ContentSlug × ContentSlug :=
  match s.stem with
  | .index =>
    ({ parent := s.parent, stem := .other [], extension := none }, s)
  | .other name =>
    let parent := s.parent ++ [name]
    ({ parent := parent, stem := .other [], extension := none },
     { parent := parent, stem := .index, extension := none })

/-- Membership in the half-open subpage range `start ≤ t < end`, as
`BTreeMap::range(start..end)` selects keys. -/
def inSubpageRange (s t : ContentSlug) : Prop :=
  slugLe s.makeSubpageRange.1 t ∧ slugLt t s.makeSubpageRange.2

instance (s t : ContentSlug) : Decidable (inSubpageRange s t) := by
  unfold inSubpageRange; infer_instance

/-- `MetadataContainer::subpages` (`build.rs` lines 310-319): the ordered
range scan over the metadata store, modelled on the store's sorted key
list. -/
def subpagesOf (store : List ContentSlug) (s : ContentSlug) : List ContentSlug :=
  store.filter (fun t => decide (inSubpageRange s t))

/-- Modelled from the claim's words (C3): the spec-defined subpage set —
for an `Index` slug, all same-parent `Other`-stem slugs other than the slug
itself; for a non-index slug named `name`, all slugs whose parent directory
is `parent/name`. Stated for comparison with `inSubpageRange`, which is the
code's definition. -/
def specSubpageMember (s t : ContentSlug) : Prop :=
  match s.stem with
  | .index => t.parent = s.parent ∧ (∃ n, t.stem = .other n) ∧ t ≠ s
  | .other name => t.parent = s.parent ++ [name]

/-! ## Path round-trip (claim C5) -/

/-- A normalized path component: nonempty, not `.` or `..`, no separator.
For such components, `Path::file_name` is the last component. -/
def validComponent (n : Name) : Prop :=
  n ≠ [] ∧ n ≠ ['.'] ∧ n ≠ ['.', '.'] ∧ '/' ∉ n

instance (n : Name) : Decidable (validComponent n) := by
  unfold validComponent; infer_instance

/-- A valid relative path: nonempty, normalized components. -/
def validRelPath (p : RelPath) : Prop :=
  p ≠ [] ∧ ∀ n ∈ p, validComponent n

instance (p : RelPath) : Decidable (validRelPath p) := by
  unfold validRelPath; infer_instance

/-! ## Template index and resolver (claim C4) -/

/-- The chain of directories the resolver's loop visits: the directory
itself, then each parent, down to and including the root `[]`. -/
def ancestors (dir : RelPath) : List RelPath :=
  ((List.range (dir.length + 1)).reverse).map (fun k => dir.take k)

/-- `dir.join("page").set_extension(ext)`: the `page.<ext>` probe path in a
directory. -/
def pageTemplatePath (dir : RelPath) (ext : Name) : RelPath :=
  dir ++ [setExtension ['p','a','g','e'] ext]

/-- The loop of `Templates::find_template` (`build.rs` lines 489-506):
starting at the slug's parent and stepping one directory up at a time, root
included, return the first directory's `page.<ext>` present in the index. -/
def walkUp (tpaths : List RelPath) (ext : Name) (dir : RelPath) :
    Option RelPath :=
  (ancestors dir).findSome? (fun d =>
    if pageTemplatePath d ext ∈ tpaths then some (pageTemplatePath d ext)
    else none)

/-- The exact-match probe: `slug.as_path()` with the effective extension
substituted (`build.rs` lines 482-486). -/
def exactTemplatePath (s : ContentSlug) (ext : Name) : RelPath :=
  s.parent ++ [setExtension (setExtension (slugStemName s) (s.extension.getD [])) ext]

/-- `Templates::find_template`: exact match first, then the upward walk. -/
def findTemplate (tpaths : List RelPath) (s : ContentSlug) (ext : Name) :
    Option RelPath :=
  if exactTemplatePath s ext ∈ tpaths then some (exactTemplatePath s ext)
  else walkUp tpaths ext s.parent

/-- The `Transform::ApplyTemplate` arm of `ContentFile::process`
(`build.rs` lines 401-425): with no resolved template the content passes
through unchanged; otherwise the external engine renders it. -/
def applyTemplateStep (render : RelPath → String → String)
    (tpaths : List RelPath) (s : ContentSlug) (ext : Name)
    (content : String) : String :=
  match findTemplate tpaths s ext with
  | none => content
  | some t => render t content

/-! ## Djot event stream (`src/build/djot.rs`, `src/build/djot/biblatex.rs`) -/

/-- The jotdown containers the pipeline inspects or emits. Fields the code
never reads are kept where its patterns mention them (`heading` keeps
`level`, `hasSection`, `id`); `emphasis` stands for any other inline
container. -/
inductive Container where
  | rawBlock (format : Name)
  | rawInline (format : Name)
  | heading (level : Nat) (hasSection : Bool) (id : Name)
  | div (cls : Name)
  | sec (id : Name)
  | emphasis
deriving DecidableEq, Repr

/-- A jotdown event: `stop` models `Event::End`, `str` a text fragment;
`blankline` and `softbreak` are the other event kinds the code emits or
skips over. -/
inductive Event where
  | start (c : Container)
  | stop (c : Container)
  | str (s : Name)
  | blankline
  | softbreak
deriving DecidableEq, Repr

/-- `collect_strings` (`djot.rs` lines 10-24): concatenate the leading run
of `Str` events and count them, stopping at the first other event. -/
def collectStrings : List Event → Name × Nat
  | .str s :: rest =>
    let (c, n) := collectStrings rest
    (s ++ c, n + 1)
  | _ => ([], 0)

/-- Indices of the events satisfying `p`, in order — the model of
`events.iter().enumerate().filter(...)`. -/
def offsetsWhere (p : Event → Bool) : Nat → List Event → List Nat
  | _, [] => []
  | i, e :: rest =>
    if p e then i :: offsetsWhere p (i + 1) rest
    else offsetsWhere p (i + 1) rest

/-- `Event::Start(Container::Heading { level: 1, .. }, _)`. -/
def isH1Start : Event → Bool
  | .start (.heading 1 _ _) => true
  | _ => false

/-- `Event::End(Container::Heading { level: 1, .. })`. -/
def isH1End : Event → Bool
  | .stop (.heading 1 _ _) => true
  | _ => false

/-- `find_title` (`djot.rs` lines 70-102): no level-1 heading is fine (no
title); two level-1 heading starts anywhere is a hard error; otherwise the
leading `Str` run after the single heading start becomes the title exactly
when it reaches the heading's end event. The function reads the stream
immutably, so the heading always stays in the document. -/
def findTitle (events : List Event) : Except String (Option Name) :=
  match offsetsWhere isH1Start 0 events with
  | [] => .ok none
  | off :: rest =>
    if rest = [] then
      let (title, n) := collectStrings (events.drop (off + 1))
      match events[off + n + 1]? with
      | some e => if isH1End e then .ok (some title) else .ok none
      | none => .ok none
    else .error "Found multiple level 1 headers in the same document"

/-- Modelled from the claim's words (C7): the flattened text content of
the first level-1 heading — every text fragment strictly between the
heading's start and the first following level-1 heading end, concatenated.
Stated for comparison with `findTitle`, which is the code's behaviour. -/
def specFlattenedTitle (events : List Event) : Option Name :=
  match offsetsWhere isH1Start 0 events with
  | [] => none
  | off :: _ =>
    match (offsetsWhere isH1End 0 events).filter (fun j => off < j) with
    | [] => none
    | endOff :: _ =>
      some ((((events.drop (off + 1)).take (endOff - off - 1)).filterMap
        (fun e => match e with | .str s => some s | _ => none)).flatten)

/-! ## Citation processing (`src/build/djot/biblatex.rs`, claims C6, C10) -/

/-- `Event::Start(Container::RawInline { format: "cite" }, _)`. -/
def isCiteStart : Event → Bool
  | .start (.rawInline f) => f = "cite".data
  | _ => false

/-- `str::split(';')`. -/
def splitSemi : Name → List Name
  | [] => [[]]
  | c :: rest =>
    if c = ';' then [] :: splitSemi rest
    else
      match splitSemi rest with
      | h :: t => (c :: h) :: t
      | [] => [[c]]

/-- `str::trim`. -/
def trimName (n : Name) : Name :=
  ((n.dropWhile Char.isWhitespace).reverse.dropWhile Char.isWhitespace).reverse

/-- The known citation keys of one marker's raw text, in order, duplicates
kept: split on `;`, trim, drop keys absent from the library (with only a
debug log, not an error). -/
def knownKeys (library : List Name) (raw : Name) : List Name :=
  ((splitSemi raw).map trimName).filter (fun k => decide (k ∈ library))

/-- The raw text of the marker starting at `off`: the leading `Str` run
after the start event. -/
def markerRawText (events : List Event) (off : Nat) : Name :=
  (collectStrings (events.drop (off + 1))).1

/-- The marker at `off` is well formed: right after its `Str` run comes the
matching `End(RawInline "cite")`. -/
def citeMarkerTerminated (events : List Event) (off : Nat) : Prop :=
  events[off + (collectStrings (events.drop (off + 1))).2 + 1]? =
    some (.stop (.rawInline "cite".data))

instance (events : List Event) (off : Nat) :
    Decidable (citeMarkerTerminated events off) := by
  unfold citeMarkerTerminated; infer_instance

/-- The scanning loop of `handle_references` (`biblatex.rs` lines 187-221):
walk the cite-marker offsets in document order, recording each marker's
replaced span and its known keys; `none` models the early `return Ok(())`
taken when a marker lacks its end event, before any event is modified. -/
def scanCitations (library : List Name) (events : List Event) :
    List Nat → Option (List (Nat × Nat) × List (List Name))
  | [] => some ([], [])
  | off :: rest =>
    if citeMarkerTerminated events off then
      match scanCitations library events rest with
      | some (spans, keyss) =>
        some ((off, off + (collectStrings (events.drop (off + 1))).2 + 2)
            :: spans,
          knownKeys library (markerRawText events off) :: keyss)
      | none => none
    else none

/-- One request to the citation engine: `CitationRequest` built from
`CitationItem`s; `hidden` is the flag set for the library-wide pass. -/
structure CitationReq where
  keys : List Name
  hidden : Bool
deriving DecidableEq, Repr

/-- The full sequence of `driver.citation(...)` calls a successful
`handle_references` run submits before `driver.finish`: one non-hidden
request per inline marker, in document order (lines 189-221), then one
hidden request per library entry (lines 225-228). `none` when scanning
aborted, in which case the driver is dropped unfinished. -/
def citeRequests (library : List Name) (events : List Event) :
    Option (List CitationReq) :=
  match scanCitations library events (offsetsWhere isCiteStart 0 events) with
  | none => none
  | some (_, keyss) =>
    some (keyss.map (fun ks => ⟨ks, false⟩) ++
      library.map (fun k => ⟨[k], true⟩))

/-- One citation splice (`biblatex.rs` lines 247-256): `Vec::splice`
replaces the span with a rendered raw-HTML inline triple. -/
def spliceOne (events : List Event) (start stop : Nat) (frag : Name) :
    List Event :=
  events.take start ++
    [.start (.rawInline "html".data), .str frag,
      .stop (.rawInline "html".data)] ++
    events.drop stop

/-- The splice loop with its running `removed_offset` adjustment
(`biblatex.rs` lines 241-259); the offset is an `Int` here — in Rust it is
a `usize` whose update `removed_offset += num_events_removed - 3`
underflows when a span holds fewer than three events. -/
def spliceCitations (renderCite : Nat → Name) :
    Nat → Int → List Event → List (Nat × Nat) → List Event
  | _, _, events, [] => events
  | idx, removedOffset, events, (start, stop) :: rest =>
    spliceCitations renderCite (idx + 1)
      (removedOffset + ((stop : Int) - (start : Int)) - 3)
      (spliceOne events (removedOffset + (start : Int)).toNat
        (removedOffset + (stop : Int)).toNat (renderCite idx))
      rest

/-- The events of one rendered reference item (`biblatex.rs` lines
268-300): the anchored `[n]` key span and the `<cite>`-wrapped body. -/
def bibliographyItemEvents (idx : Nat) (key rendered : Name) :
    List Event :=
  [.start (.div "reference-key".data),
    .start (.rawBlock "html".data),
    .str ("<span id=\"ref-".data ++ key ++ "\">[".data ++
      (toString (idx + 1)).data ++ "]</span>".data),
    .stop (.rawBlock "html".data),
    .stop (.div "reference-key".data),
    .start (.rawBlock "html".data),
    .str "<cite class=\"reference-body\">".data,
    .stop (.rawBlock "html".data),
    .start (.rawBlock "html".data),
    .str rendered,
    .stop (.rawBlock "html".data),
    .start (.rawBlock "html".data),
    .str "</cite>".data,
    .stop (.rawBlock "html".data)]

/-- All reference items, blank lines between consecutive ones. -/
def bibliographyEvents (items : List (Name × Name)) : List Event :=
  (items.enum.map (fun p =>
    bibliographyItemEvents p.1 p.2.1 p.2.2 ++
      (if p.1 ≠ items.length - 1 then [Event.blankline] else []))).flatten

/-- The labeled section appended at the document's end (`biblatex.rs`
lines 302-341). -/
def referenceSection (items : List (Name × Name)) : List Event :=
  [.start (.sec "reference".data),
    .start (.heading 2 true "reference".data),
    .str "Reference".data,
    .stop (.heading 2 true "reference".data),
    .start (.div "reference-grid".data)] ++
  bibliographyEvents items ++
  [.stop (.div "reference-grid".data),
    .stop (.sec "reference".data)]

/-- `handle_references` (`biblatex.rs` lines 152-344) with the external
hayagriva engine abstracted as pure data: `renderCite idx` is the rendered
fragment of the idx-th marker and `bib` the rendered bibliography (`none`
models `rendered.bibliography == None`). `bibFile` is the metadata's
`bibliography_file`; without it the whole step is skipped. The `Except`
mirrors the `anyhow::Result`. -/
def handleReferences (library : List Name) (renderCite : Nat → Name)
    (bib : Option (List (Name × Name))) (bibFile : Option Name)
    (events : List Event) : Except String (List Event) :=
  match bibFile with
  | none => .ok events
  | some _ =>
    match scanCitations library events
        (offsetsWhere isCiteStart 0 events) with
    | none => .ok events
    | some (spans, _) =>
      let spliced := spliceCitations renderCite 0 0 events spans
      match bib with
      | none => .ok spliced
      | some items => .ok (spliced ++ referenceSection items)

/-! ## Site classification and build driver (`build.rs`, claims C8, C9) -/

/-- `MediaType` (`build.rs` lines 234-249). -/
inductive MediaType where
  | other (ext : Option Name)
  | djot
  | html
deriving DecidableEq, Repr

/-- `MediaType::extension`. -/
def MediaType.extension : MediaType → Name
  | .other ext => ext.getD []
  | .djot => "dj".data
  | .html => "html".data

/-- `Transform` (`build.rs` lines 251-255). -/
inductive Transform where
  | renderDjot
  | applyTemplate
deriving DecidableEq, Repr

/-- `ContentFile` (`build.rs` lines 322-328), carrying its input path. -/
structure ContentFile where
  inputPath : RelPath
  originalMediaType : MediaType
  currentMediaType : MediaType
  plan : List Transform
deriving DecidableEq, Repr

/-- The extension of a path's file name, Rust `Path::extension`. -/
def pathExtension (p : RelPath) : Option Name :=
  match p.getLast? with
  | some n => extensionOf n
  | none => none

/-- `ContentFile::from_input` (`build.rs` lines 330-359): media type from
the input extension; `dj` plans `[RenderDjot, ApplyTemplate]` and becomes
HTML, `html` plans `[ApplyTemplate]`, anything else gets an empty plan. -/
def ContentFile.fromInput (inputPath : RelPath) : ContentFile :=
  let mt : MediaType :=
    match pathExtension inputPath with
    | some e =>
      if e = "dj".data then .djot
      else if e = "html".data then .html
      else .other (some e)
    | none => .other none
  let current := if mt = .djot then MediaType.html else mt
  let plan₁ : List Transform := if mt = .djot then [.renderDjot] else []
  let plan := if current = .html then plan₁ ++ [.applyTemplate] else plan₁
  ⟨inputPath, mt, current, plan⟩

/-- `ContentFile::output_filename`: the input file name with the current
media type's extension. -/
def ContentFile.outputFilename (f : ContentFile) : Name :=
  setExtension (f.inputPath.getLast?.getD []) f.currentMediaType.extension

/-- The classified site: content slugs with their input paths, and
template paths relative to the templates root. -/
structure SiteModel where
  contentSlugs : List (ContentSlug × RelPath)
  templatePaths : List RelPath
deriving DecidableEq, Repr

/-- One step of `Site::parse`'s classification loop (`build.rs` lines
522-554): content files with file stem `page` and templates without an
`html` extension are configuration errors; files under neither `content/`
nor `templates/` are dropped with only a debug log. -/
def classifyFile (path : RelPath) (site : SiteModel) :
    Except String SiteModel :=
  match path.head? with
  | none => .ok site
  | some first =>
    if first = "content".data then
      if path.getLast?.map fileStem = some "page".data then
        .error "Cannot have a content page named page"
      else
        match ContentSlug.fromPath (path.drop 1) with
        | none => .error "Content has no file name"
        | some slug =>
          .ok ⟨site.contentSlugs ++ [(slug, path)], site.templatePaths⟩
    else if first = "templates".data then
      if pathExtension path ≠ some "html".data then
        .error "Template files must be HTML"
      else .ok ⟨site.contentSlugs, site.templatePaths ++ [path.drop 1]⟩
    else .ok site

/-- `Site::parse`'s loop over the gathered files, threading the site being
built; the first configuration error aborts. -/
def siteParseFrom : List RelPath → SiteModel → Except String SiteModel
  | [], site => .ok site
  | path :: rest, site =>
    match classifyFile path site with
    | .error e => .error e
    | .ok site' => siteParseFrom rest site'

/-- `Site::parse` (`build.rs` lines 517-566). -/
def siteParse (files : List RelPath) : Except String SiteModel :=
  siteParseFrom files ⟨[], []⟩

/-- The output paths a successful `build` (`build.rs` lines 593-683)
writes, relative to the output root: classification first, then one
written file per content slug at `slug.parent` joined with the content
file's output file name (lines 664-678). No other path is written — in
particular nothing for files outside `content/`. -/
def buildOutputPaths (files : List RelPath) :
    Except String (List RelPath) :=
  match siteParse files with
  | .error e => .error e
  | .ok site =>
    .ok (site.contentSlugs.map (fun p =>
      p.1.parent ++ [(ContentFile.fromInput p.2).outputFilename]))

section CmpLaws

variable {α : Type _}

theorem ordCmp_eq_iff [LinearOrder α] {a b : α} : ordCmp a b = .eq ↔ a = b := by
  unfold ordCmp
  split_ifs with h1 h2
  · simp [ne_of_lt h1]
  · simp [h2]
  · simp
    intro h
    exact absurd h h2

theorem ordCmp_swap [LinearOrder α] (a b : α) : (ordCmp a b).swap = ordCmp b a := by
  unfold ordCmp
  rcases lt_trichotomy a b with h | h | h
  · rw [if_pos h, if_neg (not_lt.mpr h.le), if_neg h.ne']
    rfl
  · subst h
    rw [if_neg (lt_irrefl a), if_pos rfl]
    rfl
  · rw [if_neg (not_lt.mpr h.le), if_neg h.ne', if_pos h]
    rfl

theorem ordCmp_lt_trans [LinearOrder α] {a b c : α} (h1 : ordCmp a b = .lt)
    (h2 : ordCmp b c = .lt) : ordCmp a c = .lt := by
  unfold ordCmp at *
  split_ifs at h1 h2 with ha hb
  rw [if_pos (lt_trans ha hb)]

end CmpLaws

section OrderingLemmas

@[simp] theorem ordering_eq_then (x : Ordering) : Ordering.eq.then x = x := rfl

@[simp] theorem ordering_lt_then (x : Ordering) : Ordering.lt.then x = .lt := rfl

@[simp] theorem ordering_gt_then (x : Ordering) : Ordering.gt.then x = .gt := rfl

theorem ordering_swap_then (x y : Ordering) : (x.then y).swap = x.swap.then y.swap := by
  cases x <;> rfl

theorem ordering_swap_eq_iff {x : Ordering} : x.swap = .eq ↔ x = .eq := by
  cases x <;> simp [Ordering.swap]

theorem ordering_swap_swap (x : Ordering) : x.swap.swap = x := by
  cases x <;> rfl

end OrderingLemmas

section LexLaws

variable {α : Type _} {c : α → α → Ordering}

theorem lexCmp_eq_iff (hc : ∀ a b, c a b = .eq ↔ a = b) :
    ∀ as bs : List α, lexCmp c as bs = .eq ↔ as = bs := by
  intro as
  induction as with
  | nil => intro bs; cases bs <;> simp [lexCmp]
  | cons a as ih =>
    intro bs
    cases bs with
    | nil => simp [lexCmp]
    | cons b bs =>
      simp only [lexCmp]
      rcases h : c a b with _ | _ | _
      · simp only [ordering_lt_then]
        constructor
        · intro hx; exact absurd hx (by simp)
        · intro hx
          injection hx with hx1 hx2
          subst hx1
          rw [(hc a a).mpr rfl] at h
          exact absurd h (by simp)
      · have hab : a = b := (hc a b).mp h
        subst hab
        simp only [ordering_eq_then, ih bs, List.cons.injEq, true_and]
      · simp only [ordering_gt_then]
        constructor
        · intro hx; exact absurd hx (by simp)
        · intro hx
          injection hx with hx1 hx2
          subst hx1
          rw [(hc a a).mpr rfl] at h
          exact absurd h (by simp)

theorem lexCmp_swap (hc : ∀ a b, (c a b).swap = c b a) :
    ∀ as bs : List α, (lexCmp c as bs).swap = lexCmp c bs as := by
  intro as
  induction as with
  | nil => intro bs; cases bs <;> rfl
  | cons a as ih =>
    intro bs
    cases bs with
    | nil => rfl
    | cons b bs =>
      simp only [lexCmp, ordering_swap_then, hc a b, ih bs]

theorem lexCmp_lt_trans (hceq : ∀ a b, c a b = .eq ↔ a = b)
    (hct : ∀ {a b d : α}, c a b = .lt → c b d = .lt → c a d = .lt) :
    ∀ {as bs cs : List α}, lexCmp c as bs = .lt → lexCmp c bs cs = .lt →
      lexCmp c as cs = .lt := by
  intro as
  induction as with
  | nil =>
    intro bs cs h1 h2
    cases bs with
    | nil => exact h2
    | cons b bs =>
      cases cs with
      | nil => simp [lexCmp] at h2
      | cons d cs => rfl
  | cons a as ih =>
    intro bs cs h1 h2
    cases bs with
    | nil => simp [lexCmp] at h1
    | cons b bs =>
      cases cs with
      | nil => simp [lexCmp] at h2
      | cons d cs =>
        simp only [lexCmp] at h1 h2 ⊢
        rcases hab : c a b with _ | _ | _ <;> rw [hab] at h1
        · rcases hbd : c b d with _ | _ | _ <;> rw [hbd] at h2
          · rw [hct hab hbd]; rfl
          · have : b = d := (hceq b d).mp hbd
            subst this
            rw [hab]; rfl
          · simp at h2
        · have : a = b := (hceq a b).mp hab
          subst this
          rcases hbd : c a d with _ | _ | _ <;> rw [hbd] at h2
          · rfl
          · have : a = d := (hceq a d).mp hbd
            subst this
            simp only [ordering_eq_then] at h1 h2 ⊢
            exact ih h1 h2
          · simp at h2
        · simp at h1

end LexLaws

section ProdCmp

variable {α β : Type _}

theorem CmpLawful.ordCmp [LinearOrder α] : CmpLawful (ordCmp (α := α)) where
  eq_iff _ _ := ordCmp_eq_iff
  swap_eq := ordCmp_swap
  lt_trans := ordCmp_lt_trans

theorem CmpLawful.lexCmp {c : α → α → Ordering} (hc : CmpLawful c) :
    CmpLawful (lexCmp c) where
  eq_iff := lexCmp_eq_iff hc.eq_iff
  swap_eq := lexCmp_swap hc.swap_eq
  lt_trans := lexCmp_lt_trans hc.eq_iff hc.lt_trans

theorem CmpLawful.swapped {c : α → α → Ordering} (hc : CmpLawful c) :
    CmpLawful (fun a b => (c a b).swap) where
  eq_iff a b := by
    simp only [ordering_swap_eq_iff]
    exact hc.eq_iff a b
  swap_eq a b := by
    simp only [ordering_swap_swap]
    rw [← hc.swap_eq b a]
  lt_trans {a b d} h1 h2 := by
    have g1 : c b a = .lt := by rw [← hc.swap_eq a b]; exact h1
    have g2 : c d b = .lt := by rw [← hc.swap_eq b d]; exact h2
    rw [hc.swap_eq a d]
    exact hc.lt_trans g2 g1

theorem CmpLawful.prod {c : α → α → Ordering} {d : β → β → Ordering}
    (hc : CmpLawful c) (hd : CmpLawful d) : CmpLawful (prodCmp c d) where
  eq_iff p q := by
    obtain ⟨a, x⟩ := p
    obtain ⟨b, y⟩ := q
    show (c a b).then (d x y) = .eq ↔ _
    constructor
    · intro h
      rcases hab : c a b with _ | _ | _ <;> rw [hab] at h
      · exact absurd h (by simp)
      · rw [ordering_eq_then] at h
        have e1 : a = b := (hc.eq_iff a b).mp hab
        have e2 : x = y := (hd.eq_iff x y).mp h
        rw [e1, e2]
      · exact absurd h (by simp)
    · intro h
      injection h with h1 h2
      subst h1
      subst h2
      rw [(hc.eq_iff a a).mpr rfl, ordering_eq_then, (hd.eq_iff x x).mpr rfl]
  swap_eq p q := by
    obtain ⟨a, x⟩ := p
    obtain ⟨b, y⟩ := q
    show ((c a b).then (d x y)).swap = (c b a).then (d y x)
    rw [ordering_swap_then, hc.swap_eq, hd.swap_eq]
  lt_trans {p q r} h1 h2 := by
    obtain ⟨a, x⟩ := p
    obtain ⟨b, y⟩ := q
    obtain ⟨e, z⟩ := r
    show (c a e).then (d x z) = .lt
    rcases hab : c a b with _ | _ | _ <;> rw [show prodCmp c d (a, x) (b, y) = (c a b).then (d x y) from rfl, hab] at h1
    · rcases hbe : c b e with _ | _ | _ <;> rw [show prodCmp c d (b, y) (e, z) = (c b e).then (d y z) from rfl, hbe] at h2
      · rw [hc.lt_trans hab hbe]
        rfl
      · have e1 : b = e := (hc.eq_iff b e).mp hbe
        subst e1
        rw [hab]
        rfl
      · exact absurd h2 (by simp)
    · have e1 : a = b := (hc.eq_iff a b).mp hab
      subst e1
      rw [ordering_eq_then] at h1
      rcases hae : c a e with _ | _ | _ <;> rw [show prodCmp c d (a, y) (e, z) = (c a e).then (d y z) from rfl, hae] at h2
      · rfl
      · rw [ordering_eq_then] at h2 ⊢
        exact hd.lt_trans h1 h2
      · exact absurd h2 (by simp)
    · exact absurd h1 (by simp)

end ProdCmp

theorem nameCmp_lawful : CmpLawful nameCmp := CmpLawful.ordCmp.lexCmp

theorem pathCmp_lawful : CmpLawful pathCmp := nameCmp_lawful.lexCmp

theorem stemCmp_lawful : CmpLawful stemCmp where
  eq_iff a b := by
    cases a <;> cases b <;> simp [stemCmp] <;>
      simp [nameCmp_lawful.eq_iff]
  swap_eq a b := by
    cases a <;> cases b <;> simp [stemCmp, Ordering.swap] <;>
      exact nameCmp_lawful.swap_eq _ _
  lt_trans {a b d} h1 h2 := by
    cases a <;> cases b <;> cases d <;> simp_all [stemCmp]
    exact nameCmp_lawful.lt_trans h1 h2

theorem extCmp_lawful : CmpLawful extCmp where
  eq_iff a b := by
    cases a <;> cases b <;> simp [extCmp] <;>
      simp [nameCmp_lawful.eq_iff]
  swap_eq a b := by
    cases a <;> cases b <;> simp [extCmp, Ordering.swap] <;>
      exact nameCmp_lawful.swap_eq _ _
  lt_trans {a b d} h1 h2 := by
    cases a <;> cases b <;> cases d <;> simp_all [extCmp]
    exact nameCmp_lawful.lt_trans h1 h2

/-- The slug comparison is the lawful product comparator on the field
triple. -/
theorem slug_cmp_eq_prod (a b : ContentSlug) :
    ContentSlug.cmp a b =
      prodCmp (fun p q => (pathCmp p q).swap) (prodCmp stemCmp extCmp)
        (a.parent, a.stem, a.extension) (b.parent, b.stem, b.extension) := rfl

theorem slugCmp_lawful : CmpLawful ContentSlug.cmp where
  eq_iff a b := by
    rw [slug_cmp_eq_prod,
      (pathCmp_lawful.swapped.prod (stemCmp_lawful.prod extCmp_lawful)).eq_iff]
    constructor
    · intro h
      injection h with h1 h2
      injection h2 with h2 h3
      cases a
      cases b
      simp_all
    · intro h
      rw [h]
  swap_eq a b := by
    rw [slug_cmp_eq_prod, slug_cmp_eq_prod,
      (pathCmp_lawful.swapped.prod (stemCmp_lawful.prod extCmp_lawful)).swap_eq]
  lt_trans {a b d} h1 h2 := by
    rw [slug_cmp_eq_prod] at h1 h2 ⊢
    exact (pathCmp_lawful.swapped.prod
      (stemCmp_lawful.prod extCmp_lawful)).lt_trans h1 h2

/-! ## Slug ordering facts -/

theorem slugCmp_of_parent_lt {a b : ContentSlug}
    (h : pathCmp a.parent b.parent = .lt) : ContentSlug.cmp a b = .gt := by
  unfold ContentSlug.cmp
  rw [h]
  rfl

theorem slugCmp_of_parent_gt {a b : ContentSlug}
    (h : pathCmp a.parent b.parent = .gt) : ContentSlug.cmp a b = .lt := by
  unfold ContentSlug.cmp
  rw [h]
  rfl

theorem slugCmp_of_parent_eq {a b : ContentSlug} (h : a.parent = b.parent) :
    ContentSlug.cmp a b =
      (stemCmp a.stem b.stem).then (extCmp a.extension b.extension) := by
  unfold ContentSlug.cmp
  rw [h, (pathCmp_lawful.eq_iff b.parent b.parent).mpr rfl]
  rfl

theorem nameCmp_nil_ne_gt (n : Name) : nameCmp [] n ≠ .gt := by
  cases n <;> simp [nameCmp, lexCmp]

theorem extCmp_none_ne_gt (f : Option Name) : extCmp none f ≠ .gt := by
  cases f <;> simp [extCmp]

theorem extCmp_none_not_lt (f : Option Name) : extCmp f none ≠ .lt := by
  cases f <;> simp [extCmp]

/-- What the half-open range for an `Index` slug actually contains:
same-parent slugs with an `Other` stem, plus same-parent `Index` slugs
with a strictly smaller extension. -/
theorem inSubpageRange_index_iff {p : RelPath} {e : Option Name}
    (t : ContentSlug) :
    inSubpageRange ⟨p, .index, e⟩ t ↔
      t.parent = p ∧
        ((∃ n, t.stem = .other n) ∨
          (t.stem = .index ∧ extCmp t.extension e = .lt)) := by
  obtain ⟨q, st, f⟩ := t
  show slugLe ⟨p, .other [], none⟩ ⟨q, st, f⟩ ∧
      slugLt ⟨q, st, f⟩ ⟨p, .index, e⟩ ↔ _
  unfold slugLe slugLt
  rcases hq : pathCmp q p with _ | _ | _
  · constructor
    · rintro ⟨-, h2⟩
      rw [show ContentSlug.cmp ⟨q, st, f⟩ ⟨p, .index, e⟩ = .gt from
        slugCmp_of_parent_lt hq] at h2
      exact absurd h2 (by simp)
    · rintro ⟨h, -⟩
      rw [show q = p from h, (pathCmp_lawful.eq_iff p p).mpr rfl] at hq
      exact absurd hq (by simp)
  · have hqp : q = p := (pathCmp_lawful.eq_iff q p).mp hq
    subst hqp
    rw [slugCmp_of_parent_eq (show (⟨q, .other [], none⟩ : ContentSlug).parent =
          (⟨q, st, f⟩ : ContentSlug).parent from rfl),
      slugCmp_of_parent_eq (show (⟨q, st, f⟩ : ContentSlug).parent =
          (⟨q, .index, e⟩ : ContentSlug).parent from rfl)]
    cases st with
    | index =>
      show Ordering.lt.then _ ≠ .gt ∧ (stemCmp .index .index).then (extCmp f e) = .lt ↔ _
      simp only [stemCmp, ordering_lt_then, ordering_eq_then]
      constructor
      · rintro ⟨-, h2⟩
        exact ⟨trivial, Or.inr ⟨trivial, h2⟩⟩
      · rintro ⟨-, h | h⟩
        · obtain ⟨n, hn⟩ := h
          exact absurd hn (by simp)
        · exact ⟨by simp, h.2⟩
    | other n =>
      show (stemCmp (.other []) (.other n)).then (extCmp none f) ≠ .gt ∧
          Ordering.lt.then _ = .lt ↔ _
      simp only [stemCmp, ordering_lt_then]
      constructor
      · rintro ⟨-, -⟩
        exact ⟨trivial, Or.inl ⟨n, rfl⟩⟩
      · rintro ⟨-, -⟩
        refine ⟨?_, trivial⟩
        rcases hn : nameCmp [] n with _ | _ | _
        · simp
        · rw [ordering_eq_then]
          exact extCmp_none_ne_gt f
        · exact absurd hn (nameCmp_nil_ne_gt n)
  · constructor
    · rintro ⟨h1, -⟩
      have : pathCmp p q = .lt := by
        rw [← pathCmp_lawful.swap_eq q p, hq]
        rfl
      rw [show ContentSlug.cmp ⟨p, .other [], none⟩ ⟨q, st, f⟩ = .gt from
        slugCmp_of_parent_lt this] at h1
      exact absurd rfl h1
    · rintro ⟨h, -⟩
      rw [show q = p from h, (pathCmp_lawful.eq_iff p p).mpr rfl] at hq
      exact absurd hq (by simp)

/-- What the half-open range for a non-index slug named `name` actually
contains: `Other`-stem slugs whose parent is `parent/name`; the nested
directory's own `Index` slugs fall outside the range. -/
theorem inSubpageRange_other_iff {p : RelPath} {name : Name}
    {e : Option Name} (t : ContentSlug) :
    inSubpageRange ⟨p, .other name, e⟩ t ↔
      t.parent = p ++ [name] ∧ (∃ n, t.stem = .other n) := by
  obtain ⟨q, st, f⟩ := t
  show slugLe ⟨p ++ [name], .other [], none⟩ ⟨q, st, f⟩ ∧
      slugLt ⟨q, st, f⟩ ⟨p ++ [name], .index, none⟩ ↔ _
  unfold slugLe slugLt
  rcases hq : pathCmp q (p ++ [name]) with _ | _ | _
  · constructor
    · rintro ⟨-, h2⟩
      rw [show ContentSlug.cmp ⟨q, st, f⟩ ⟨p ++ [name], .index, none⟩ = .gt from
        slugCmp_of_parent_lt hq] at h2
      exact absurd h2 (by simp)
    · rintro ⟨h, -⟩
      rw [show q = p ++ [name] from h,
        (pathCmp_lawful.eq_iff (p ++ [name]) (p ++ [name])).mpr rfl] at hq
      exact absurd hq (by simp)
  · have hqp : q = p ++ [name] := (pathCmp_lawful.eq_iff q (p ++ [name])).mp hq
    subst hqp
    rw [slugCmp_of_parent_eq
        (show (⟨p ++ [name], .other [], none⟩ : ContentSlug).parent =
          (⟨p ++ [name], st, f⟩ : ContentSlug).parent from rfl),
      slugCmp_of_parent_eq
        (show (⟨p ++ [name], st, f⟩ : ContentSlug).parent =
          (⟨p ++ [name], .index, none⟩ : ContentSlug).parent from rfl)]
    cases st with
    | index =>
      show Ordering.lt.then _ ≠ .gt ∧
          (stemCmp .index .index).then (extCmp f none) = .lt ↔ _
      simp only [stemCmp, ordering_lt_then, ordering_eq_then]
      constructor
      · rintro ⟨-, h2⟩
        exact absurd h2 (extCmp_none_not_lt f)
      · rintro ⟨-, n, hn⟩
        exact absurd hn (by simp)
    | other n =>
      show (stemCmp (.other []) (.other n)).then (extCmp none f) ≠ .gt ∧
          Ordering.lt.then _ = .lt ↔ _
      simp only [stemCmp, ordering_lt_then]
      constructor
      · rintro ⟨-, -⟩
        exact ⟨trivial, ⟨n, rfl⟩⟩
      · rintro ⟨-, -⟩
        refine ⟨?_, trivial⟩
        rcases hn : nameCmp [] n with _ | _ | _
        · simp
        · rw [ordering_eq_then]
          exact extCmp_none_ne_gt f
        · exact absurd hn (nameCmp_nil_ne_gt n)
  · constructor
    · rintro ⟨h1, -⟩
      have hlt : pathCmp (p ++ [name]) q = .lt := by
        rw [← pathCmp_lawful.swap_eq q (p ++ [name]), hq]
        rfl
      rw [show ContentSlug.cmp ⟨p ++ [name], .other [], none⟩ ⟨q, st, f⟩ = .gt from
        slugCmp_of_parent_lt hlt] at h1
      exact absurd rfl h1
    · rintro ⟨h, -⟩
      rw [show q = p ++ [name] from h,
        (pathCmp_lawful.eq_iff (p ++ [name]) (p ++ [name])).mpr rfl] at hq
      exact absurd hq (by simp)

theorem slugLt_irrefl (a : ContentSlug) : ¬ slugLt a a := by
  unfold slugLt
  rw [(slugCmp_lawful.eq_iff a a).mpr rfl]
  simp

/-- Claim C2: the ordering on `ContentSlug` is a strict total order
(irreflexive, transitive, total) given by parent reversed, then stem, then
extension; and with equal parents every `Other`-stem slug compares strictly
below an `Index`-stem slug, whatever the `Other` name and the extensions. -/
theorem slug_order_strict_total_other_lt_index :
    (∀ a : ContentSlug, ¬ slugLt a a) ∧
    (∀ a b c : ContentSlug, slugLt a b → slugLt b c → slugLt a c) ∧
    (∀ a b : ContentSlug, slugLt a b ∨ a = b ∨ slugLt b a) ∧
    (∀ (p : RelPath) (n : Name) (e₁ e₂ : Option Name),
      slugLt ⟨p, .other n, e₁⟩ ⟨p, .index, e₂⟩) := by
  refine ⟨slugLt_irrefl, ?_, ?_, ?_⟩
  · intro a b c h1 h2
    exact slugCmp_lawful.lt_trans h1 h2
  · intro a b
    rcases h : ContentSlug.cmp a b with _ | _ | _
    · exact Or.inl h
    · exact Or.inr (Or.inl ((slugCmp_lawful.eq_iff a b).mp h))
    · refine Or.inr (Or.inr ?_)
      unfold slugLt
      rw [← slugCmp_lawful.swap_eq a b, h]
      rfl
  · intro p n e₁ e₂
    unfold slugLt
    rw [slugCmp_of_parent_eq
      (show (⟨p, .other n, e₁⟩ : ContentSlug).parent =
        (⟨p, .index, e₂⟩ : ContentSlug).parent from rfl)]
    rfl

/-- Witness for C2: the transitivity conjunct applied at concrete slugs. -/
theorem slug_order_strict_total_other_lt_index_witness :
    slugLt ⟨[], .other ['a'], none⟩ ⟨[], .index, none⟩ :=
  slug_order_strict_total_other_lt_index.2.1
    ⟨[], .other ['a'], none⟩ ⟨[], .other ['b'], none⟩ ⟨[], .index, none⟩
    (by decide) (by decide)

/-- Counterexample to C3 as stated: (a) `foo/index.dj` has parent directory
`foo` and so is spec-required among the subpages of the non-index slug
`foo.dj`, yet the code's range excludes it; (b) with two index files in one
directory, `index.dj` falls inside `index.html`'s range although its stem
is not `Other`. -/
theorem subpage_range_spec_counterexample :
    (specSubpageMember ⟨[], .other ['f','o','o'], some ['d','j']⟩
        ⟨[['f','o','o']], .index, some ['d','j']⟩ ∧
      (⟨[['f','o','o']], .index, some ['d','j']⟩ : ContentSlug) ∈
        [(⟨[['f','o','o']], .index, some ['d','j']⟩ : ContentSlug)] ∧
      (⟨[['f','o','o']], .index, some ['d','j']⟩ : ContentSlug) ∉
        subpagesOf [⟨[['f','o','o']], .index, some ['d','j']⟩]
          ⟨[], .other ['f','o','o'], some ['d','j']⟩) ∧
    (¬ specSubpageMember ⟨[], .index, some ['h','t','m','l']⟩
        ⟨[], .index, some ['d','j']⟩ ∧
      (⟨[], .index, some ['d','j']⟩ : ContentSlug) ∈
        subpagesOf [⟨[], .index, some ['d','j']⟩]
          ⟨[], .index, some ['h','t','m','l']⟩) := by
  refine ⟨⟨rfl, by decide, by decide⟩, ?_, by decide⟩
  rintro ⟨-, ⟨n, hn⟩, -⟩
  exact absurd hn (by simp)

/-- Claim C3 (amended): `subpages` selects from the store exactly — for an
`Index` slug, the same-parent slugs that are `Other`-stem or `Index`-stem
with strictly smaller extension; for a non-index slug named `name`, the
`Other`-stem slugs with parent `parent/name` — and preserves slug order. -/
theorem subpages_membership (store : List ContentSlug) (s t : ContentSlug) :
    (t ∈ subpagesOf store s ↔
      t ∈ store ∧
        match s.stem with
        | .index =>
          t.parent = s.parent ∧
            ((∃ n, t.stem = .other n) ∨
              (t.stem = .index ∧ extCmp t.extension s.extension = .lt))
        | .other name =>
          t.parent = s.parent ++ [name] ∧ (∃ n, t.stem = .other n)) ∧
    (store.Pairwise slugLt → (subpagesOf store s).Pairwise slugLt) := by
  constructor
  · rw [subpagesOf, List.mem_filter, decide_eq_true_iff]
    obtain ⟨p, st, e⟩ := s
    cases st with
    | index => rw [inSubpageRange_index_iff]
    | other name => rw [inSubpageRange_other_iff]
  · intro h
    exact h.filter _

/-- In a store sorted by ascending slug order, any stored slug strictly
below `S` lies in the prefix processed before `S`'s own plan runs. -/
theorem mem_processed_prefix {store : List ContentSlug}
    (hsort : store.Pairwise slugLt) {T S : ContentSlug} (hT : T ∈ store)
    (hlt : slugLt T S) : T ∈ store.takeWhile (fun x => decide (x ≠ S)) := by
  induction store with
  | nil => cases hT
  | cons x rest ih =>
    rw [List.pairwise_cons] at hsort
    obtain ⟨hx, hrest⟩ := hsort
    rcases List.mem_cons.mp hT with rfl | hT'
    · have hxS : ¬ T = S := by
        rintro rfl
        exact absurd hlt (slugLt_irrefl T)
      rw [List.takeWhile_cons, if_pos (by simpa using hxS)]
      exact List.mem_cons_self _ _
    · by_cases hxS : x = S
      · subst hxS
        exact absurd (slugCmp_lawful.lt_trans (hx T hT') hlt) (slugLt_irrefl _)
      · rw [List.takeWhile_cons, if_pos (by simpa using hxS)]
        exact List.mem_cons_of_mem _ (ih hrest hT')

/-- Claim C1: the driver iterates content files in ascending slug order
(the `BTreeMap` key order); every slug in an index page's subpage range
compares strictly below the index slug, hence its whole plan — which
populates its metadata — has completed before the index page's
`ApplyTemplate` step observes it. -/
theorem index_subpages_processed_first (store : List ContentSlug)
    (hsort : store.Pairwise slugLt) (S : ContentSlug)
    (hS : S.stem = .index) :
    ∀ T ∈ subpagesOf store S,
      slugLt T S ∧ T ∈ store.takeWhile (fun x => decide (x ≠ S)) := by
  intro T hT
  rw [subpagesOf, List.mem_filter, decide_eq_true_iff] at hT
  obtain ⟨hmem, hin⟩ := hT
  obtain ⟨p, st, e⟩ := S
  cases hS
  have hlt : slugLt T ⟨p, .index, e⟩ := hin.2
  exact ⟨hlt, mem_processed_prefix hsort hmem hlt⟩

/-- Witness for C1 at a concrete three-page store. -/
theorem index_subpages_processed_first_witness :
    slugLt ⟨[], .other ['a'], some ['d','j']⟩ ⟨[], .index, some ['d','j']⟩ ∧
      (⟨[], .other ['a'], some ['d','j']⟩ : ContentSlug) ∈
        List.takeWhile (fun x => decide (x ≠ ⟨[], .index, some ['d','j']⟩))
          [⟨[], .other ['a'], some ['d','j']⟩, ⟨[], .other ['b'], some ['d','j']⟩,
            ⟨[], .index, some ['d','j']⟩] :=
  index_subpages_processed_first
    [⟨[], .other ['a'], some ['d','j']⟩, ⟨[], .other ['b'], some ['d','j']⟩,
      ⟨[], .index, some ['d','j']⟩]
    (by decide) ⟨[], .index, some ['d','j']⟩ rfl
    ⟨[], .other ['a'], some ['d','j']⟩ (by decide)

/-- Witness for C3's amended theorem at a concrete sorted store. -/
theorem subpages_membership_witness :
    List.Pairwise slugLt
      (subpagesOf
        [⟨[], .other ['a'], some ['d','j']⟩, ⟨[], .index, some ['d','j']⟩]
        ⟨[], .index, some ['d','j']⟩) :=
  (subpages_membership
      [⟨[], .other ['a'], some ['d','j']⟩, ⟨[], .index, some ['d','j']⟩]
      ⟨[], .index, some ['d','j']⟩ ⟨[], .other ['a'], some ['d','j']⟩).2
    (by decide)

theorem splitLastDot_eq :
    ∀ {n b a : Name}, splitLastDot n = some (b, a) → n = b ++ '.' :: a := by
  intro n
  induction n with
  | nil => intro b a h; simp [splitLastDot] at h
  | cons c rest ih =>
    intro b a h
    rw [splitLastDot] at h
    rcases hr : splitLastDot rest with _ | ⟨b', a'⟩ <;> rw [hr] at h
    · split_ifs at h with hc
      · injection h with h'
        injection h' with h1 h2
        subst h1
        subst h2
        subst hc
        rfl
    · injection h with h'
      injection h' with h1 h2
      subst h1
      subst h2
      have := ih hr
      rw [List.cons_append, ← this]

theorem fileStem_of_extension_none {n : Name} (h : extensionOf n = none) :
    fileStem n = n := by
  unfold extensionOf at h
  unfold fileStem
  unfold rsplitFileAtDot at h ⊢
  split_ifs at h ⊢ with hdd
  · rfl
  · rcases hr : splitLastDot n with _ | ⟨b, a⟩ <;> rw [hr] at h
    cases b with
    | nil => rfl
    | cons c bs =>
      have h' : some a = none := h
      exact Option.noConfusion h'

theorem fileStem_append_extension {n e : Name} (h : extensionOf n = some e) :
    fileStem n ++ '.' :: e = n := by
  unfold extensionOf at h
  unfold fileStem
  unfold rsplitFileAtDot at h ⊢
  split_ifs at h ⊢ with hdd
  rcases hr : splitLastDot n with _ | ⟨b, a⟩ <;> rw [hr] at h
  · have h' : (none : Option Name) = some e := h
    exact Option.noConfusion h'
  · cases b with
    | nil =>
      have h' : (none : Option Name) = some e := h
      exact Option.noConfusion h'
    | cons c bs =>
      have h' : some a = some e := h
      injection h' with h2
      subst h2
      exact (splitLastDot_eq hr).symm

/-- Counterexample to C5 as stated: `x.tar.gz` is a valid relative path
with a file name, its extension is untouched, yet the round trip yields
`x.gz` — `as_path` rebuilds the name with `set_extension`, which replaces
the dotted stem's own trailing `.tar`; likewise the trailing-dot name
`foo.` (extension `Some("")`) comes back as `foo`. -/
theorem from_to_path_counterexample :
    (validRelPath [['x','.','t','a','r','.','g','z']] ∧
      (ContentSlug.fromPath [['x','.','t','a','r','.','g','z']]).map
          ContentSlug.asPath = some [['x','.','g','z']] ∧
      some [['x','.','g','z']] ≠
        some [['x','.','t','a','r','.','g','z']]) ∧
    (validRelPath [['f','o','o','.']] ∧
      (ContentSlug.fromPath [['f','o','o','.']]).map ContentSlug.asPath =
        some [['f','o','o']] ∧
      some [['f','o','o']] ≠ some [['f','o','o','.']]) := by
  refine ⟨⟨by decide, by decide, by decide⟩,
    by decide, by decide, by decide⟩

/-- Claim C5 (amended): `from_path` followed by `to_path` reproduces a
valid relative path exactly, provided additionally that the file name's
stem carries no extension of its own (no second significant dot) and the
file name does not end in a bare dot. -/
theorem from_path_to_path_roundtrip (p : RelPath) (hne : p ≠ [])
    (_hv : validRelPath p)
    (hstem : extensionOf (fileStem (p.getLast hne)) = none)
    (hext : extensionOf (p.getLast hne) ≠ some []) :
    (ContentSlug.fromPath p).map ContentSlug.asPath = some p := by
  have hg : p.getLast? = some (p.getLast hne) :=
    List.getLast?_eq_getLast_of_ne_nil hne
  set name := p.getLast hne with hname
  rw [ContentSlug.fromPath, hg]
  simp only [Option.map_some']
  rw [ContentSlug.asPath]
  have hsn :
      slugStemName
          ⟨p.dropLast,
            if fileStem name = "index".data then ContentSlugStem.index
            else ContentSlugStem.other (fileStem name),
            extensionOf name⟩ = fileStem name := by
    rw [slugStemName]
    split_ifs with hidx
    · rw [hidx]
    · rfl
  simp only [hsn]
  have hset : setExtension (fileStem name) ((extensionOf name).getD []) = name := by
    rcases hx : extensionOf name with _ | e
    · rw [setExtension, Option.getD_none, if_pos rfl, List.append_nil,
        fileStem_of_extension_none hstem, fileStem_of_extension_none hx]
    · have he : e ≠ [] := by
        intro hcontra
        rw [hcontra] at hx
        exact hext hx
      rw [setExtension, Option.getD_some, if_neg he,
        fileStem_of_extension_none hstem]
      exact fileStem_append_extension hx
  rw [hset]
  rw [List.dropLast_append_getLast hne]

/-- Witness for C5's amended round trip at `a/b.md`. -/
theorem from_path_to_path_roundtrip_witness :
    (ContentSlug.fromPath [['a'], ['b','.','m','d']]).map ContentSlug.asPath =
      some [['a'], ['b','.','m','d']] :=
  from_path_to_path_roundtrip [['a'], ['b','.','m','d']] (by decide)
    (by decide) (by decide) (by decide)

theorem findSome?_all_none {α β : Type _} (f : α → Option β) :
    ∀ l : List α, (∀ x ∈ l, f x = none) → l.findSome? f = none := by
  intro l
  induction l with
  | nil => intro _; simp
  | cons a l ih =>
    intro h
    rw [List.findSome?_cons, h a (List.mem_cons_self a l)]
    exact ih (fun x hx => h x (List.mem_cons_of_mem a hx))

theorem findSome?_first_hit {α β : Type _} (f : α → Option β) (b : β) :
    ∀ (l₁ : List α) (d : α) (l₂ : List α), (∀ x ∈ l₁, f x = none) →
      f d = some b → (l₁ ++ d :: l₂).findSome? f = some b := by
  intro l₁
  induction l₁ with
  | nil =>
    intro d l₂ _ hd
    rw [List.nil_append, List.findSome?_cons, hd]
  | cons a l ih =>
    intro d l₂ h hd
    rw [List.cons_append, List.findSome?_cons, h a (List.mem_cons_self a l)]
    exact ih d l₂ (fun x hx => h x (List.mem_cons_of_mem a hx)) hd

/-- Claim C4: resolution returns the exact-path template when present;
otherwise the first `page.<ext>` along the parent-directory walk (nearer
directory wins, root included — the root is always on the walk); `none`
when the walk exhausts the root, in which case `ApplyTemplate` leaves the
content unchanged. -/
theorem find_template_resolution (tpaths : List RelPath) (s : ContentSlug)
    (ext : Name) :
    (([] : RelPath) ∈ ancestors s.parent) ∧
    (exactTemplatePath s ext ∈ tpaths →
      findTemplate tpaths s ext = some (exactTemplatePath s ext)) ∧
    (∀ l₁ d l₂, exactTemplatePath s ext ∉ tpaths →
      ancestors s.parent = l₁ ++ d :: l₂ →
      pageTemplatePath d ext ∈ tpaths →
      (∀ e ∈ l₁, pageTemplatePath e ext ∉ tpaths) →
      findTemplate tpaths s ext = some (pageTemplatePath d ext)) ∧
    (exactTemplatePath s ext ∉ tpaths →
      (∀ d ∈ ancestors s.parent, pageTemplatePath d ext ∉ tpaths) →
      findTemplate tpaths s ext = none) ∧
    (∀ render content, findTemplate tpaths s ext = none →
      applyTemplateStep render tpaths s ext content = content) := by
  refine ⟨?_, ?_, ?_, ?_, ?_⟩
  · refine List.mem_map.mpr ⟨0, ?_, List.take_zero s.parent⟩
    rw [List.mem_reverse, List.mem_range]
    omega
  · intro h
    rw [findTemplate, if_pos h]
  · intro l₁ d l₂ hex hanc hd hl₁
    rw [findTemplate, if_neg hex, walkUp, hanc]
    exact findSome?_first_hit _ _ l₁ d l₂
      (fun x hx => by rw [if_neg (hl₁ x hx)]) (by rw [if_pos hd])
  · intro hex hall
    rw [findTemplate, if_neg hex, walkUp]
    exact findSome?_all_none _ _ (fun d hd => by rw [if_neg (hall d hd)])
  · intro render content h
    rw [applyTemplateStep, h]

/-- Witness for C4 at the spec's own example: slug `a/b/c.md`, effective
extension `html`, templates `a/page.html` and `page.html` — the nearer
`a/page.html` wins. -/
theorem find_template_resolution_witness :
    findTemplate
        [[['a'], ['p','a','g','e','.','h','t','m','l']],
          [['p','a','g','e','.','h','t','m','l']]]
        ⟨[['a'], ['b']], .other ['c'], some ['m','d']⟩ ['h','t','m','l'] =
      some [['a'], ['p','a','g','e','.','h','t','m','l']] :=
  (find_template_resolution
      [[['a'], ['p','a','g','e','.','h','t','m','l']],
        [['p','a','g','e','.','h','t','m','l']]]
      ⟨[['a'], ['b']], .other ['c'], some ['m','d']⟩
      ['h','t','m','l']).2.2.1
    [[['a'], ['b']]] [['a']] [[]] (by decide) (by decide) (by decide)
    (by decide)

theorem offsetsWhere_append (p : Event → Bool) :
    ∀ (xs ys : List Event) (i : Nat),
      offsetsWhere p i (xs ++ ys) =
        offsetsWhere p i xs ++ offsetsWhere p (i + xs.length) ys := by
  intro xs
  induction xs with
  | nil => intro ys i; simp [offsetsWhere]
  | cons x xs ih =>
    intro ys i
    rw [List.cons_append, offsetsWhere, offsetsWhere]
    have harith : i + 1 + xs.length = i + (xs.length + 1) := by omega
    by_cases hx : p x
    · rw [if_pos hx, if_pos hx, ih ys (i + 1), List.length_cons,
        List.cons_append, harith]
    · rw [if_neg hx, if_neg hx, ih ys (i + 1), List.length_cons, harith]

theorem offsetsWhere_all_false {p : Event → Bool} :
    ∀ {xs : List Event} (i : Nat), (∀ e ∈ xs, p e = false) →
      offsetsWhere p i xs = [] := by
  intro xs
  induction xs with
  | nil => intro i _; rfl
  | cons x xs ih =>
    intro i h
    rw [offsetsWhere, if_neg (by simp [h x (List.mem_cons_self x xs)])]
    exact ih (i + 1) (fun e he => h e (List.mem_cons_of_mem x he))

theorem offsetsWhere_length (p : Event → Bool) :
    ∀ (xs : List Event) (i : Nat),
      (offsetsWhere p i xs).length = (xs.filter p).length := by
  intro xs
  induction xs with
  | nil => intro i; rfl
  | cons x xs ih =>
    intro i
    rw [offsetsWhere, List.filter_cons]
    by_cases hx : p x
    · rw [if_pos hx, if_pos hx, List.length_cons, List.length_cons, ih]
    · rw [if_neg hx, if_neg hx, ih]

theorem collectStrings_strs (strs : List Name) (e : Event)
    (rest : List Event) (he : ∀ s, e ≠ .str s) :
    collectStrings (strs.map .str ++ e :: rest) =
      (strs.flatten, strs.length) := by
  induction strs with
  | nil =>
    rw [List.map_nil, List.nil_append]
    cases e with
    | str s => exact absurd rfl (he s)
    | start c => rfl
    | stop c => rfl
    | blankline => rfl
    | softbreak => rfl
  | cons s strs ih =>
    rw [List.map_cons, List.cons_append, List.flatten_cons]
    show (let (c, n) := collectStrings (strs.map .str ++ e :: rest)
      (s ++ c, n + 1)) = (s ++ strs.flatten, strs.length + 1)
    rw [ih]

/-- Claim C7 (amended): `find_title` — no level-1 heading start yields no
title and no error; two or more level-1 heading starts anywhere are a hard
error; with exactly one level-1 heading whose content is an unbroken run of
plain text events reaching the heading's end event, the run's concatenation
becomes the title. The stream is read immutably, so the heading always
stays in the document. -/
theorem find_title_extraction (events : List Event) :
    (events.filter isH1Start = [] → findTitle events = .ok none) ∧
    (2 ≤ (events.filter isH1Start).length →
      findTitle events =
        .error "Found multiple level 1 headers in the same document") ∧
    (∀ (pre : List Event) (hs : Bool) (idn : Name) (strs : List Name)
        (hs' : Bool) (idn' : Name) (post : List Event),
      events = pre ++ .start (.heading 1 hs idn) ::
        (strs.map .str ++ .stop (.heading 1 hs' idn') :: post) →
      (∀ e ∈ pre, isH1Start e = false) →
      (∀ e ∈ post, isH1Start e = false) →
      findTitle events = .ok (some strs.flatten)) := by
  refine ⟨?_, ?_, ?_⟩
  · intro h
    rw [findTitle, offsetsWhere_all_false 0
      (fun e he => by simpa using List.filter_eq_nil_iff.mp h e he)]
  · intro h
    rcases hoffs : offsetsWhere isH1Start 0 events with _ | ⟨o, rest⟩
    · have hlen := offsetsWhere_length isH1Start events 0
      rw [hoffs] at hlen
      simp only [List.length_nil] at hlen
      omega
    · have hrest : ¬ rest = [] := by
        have hlen := offsetsWhere_length isH1Start events 0
        rw [hoffs] at hlen
        intro hcontra
        subst hcontra
        simp only [List.length_cons, List.length_nil] at hlen
        omega
      rw [findTitle, hoffs]
      show (if rest = [] then _ else _) = _
      rw [if_neg hrest]
  · intro pre hs idn strs hs' idn' post hev hpre hpost
    have hoffs : offsetsWhere isH1Start 0 events = [pre.length] := by
      rw [hev, offsetsWhere_append, offsetsWhere_all_false 0 hpre,
        List.nil_append, offsetsWhere,
        if_pos (show isH1Start (Event.start (Container.heading 1 hs idn)) = true
          from rfl),
        offsetsWhere_append,
        offsetsWhere_all_false (0 + pre.length + 1)
          (fun e he => by
            obtain ⟨s, _, rfl⟩ := List.mem_map.mp he
            rfl),
        List.nil_append, offsetsWhere,
        if_neg (by simp [isH1Start]),
        offsetsWhere_all_false _ hpost]
      simp
    have hdrop : events.drop (pre.length + 1) =
        strs.map .str ++ .stop (.heading 1 hs' idn') :: post := by
      rw [hev,
        show pre ++ Event.start (.heading 1 hs idn) ::
            (strs.map .str ++ .stop (.heading 1 hs' idn') :: post) =
          (pre ++ [Event.start (.heading 1 hs idn)]) ++
            (strs.map .str ++ .stop (.heading 1 hs' idn') :: post) by simp,
        show pre.length + 1 =
          (pre ++ [Event.start (.heading 1 hs idn)]).length by simp]
      exact List.drop_left _ _
    have hlenA :
        (pre ++ Event.start (.heading 1 hs idn) :: strs.map .str).length =
          pre.length + strs.length + 1 := by
      simp only [List.length_append, List.length_cons, List.length_map]
      omega
    have hget : events[pre.length + strs.length + 1]? =
        some (.stop (.heading 1 hs' idn')) := by
      rw [hev,
        show pre ++ Event.start (.heading 1 hs idn) ::
            (strs.map .str ++ .stop (.heading 1 hs' idn') :: post) =
          (pre ++ Event.start (.heading 1 hs idn) :: strs.map .str) ++
            (.stop (.heading 1 hs' idn') :: post) by simp,
        List.getElem?_append_right (le_of_eq hlenA), hlenA]
      simp
    rw [findTitle, hoffs]
    show (if ([] : List Nat) = [] then
        let (title, n) := collectStrings (events.drop (pre.length + 1))
        match events[pre.length + n + 1]? with
        | some e => if isH1End e then Except.ok (some title) else .ok none
        | none => .ok none
      else .error "Found multiple level 1 headers in the same document") =
      .ok (some strs.flatten)
    rw [if_pos rfl, hdrop,
      collectStrings_strs strs _ post (fun s => by simp)]
    show (match events[pre.length + strs.length + 1]? with
      | some e => if isH1End e then Except.ok (some strs.flatten)
        else .ok none
      | none => .ok none) = .ok (some strs.flatten)
    rw [hget]
    rfl

/-- Counterexample to C7 as stated: a heading with inline formatting —
`# Hello *world*` — has flattened text `Hello world`, but `find_title`
stores no title at all (the text run is interrupted, so the end-of-heading
check fails and the title is skipped without error). -/
theorem find_title_counterexample :
    specFlattenedTitle
        [.start (.heading 1 true ['h']), .str "Hello ".data,
          .start .emphasis, .str "world".data, .stop .emphasis,
          .stop (.heading 1 true ['h'])] = some "Hello world".data ∧
    findTitle
        [.start (.heading 1 true ['h']), .str "Hello ".data,
          .start .emphasis, .str "world".data, .stop .emphasis,
          .stop (.heading 1 true ['h'])] = .ok none ∧
    (some "Hello world".data ≠ (none : Option Name)) := by
  refine ⟨by decide, rfl, by simp⟩

/-- Witness for C7's amended theorem: a plain-text heading preceded and
followed by other content. -/
theorem find_title_extraction_witness :
    findTitle
        [.blankline, .start (.heading 1 true ['t']), .str "Hi".data,
          .stop (.heading 1 true ['t']), .str "body".data] =
      .ok (some "Hi".data) :=
  (find_title_extraction
      [.blankline, .start (.heading 1 true ['t']), .str "Hi".data,
        .stop (.heading 1 true ['t']), .str "body".data]).2.2
    [.blankline] true ['t'] ["Hi".data] true ['t'] [.str "body".data]
    (by decide) (by decide) (by decide)

theorem scanCitations_none_iff (library : List Name) (events : List Event) :
    ∀ offs : List Nat, scanCitations library events offs = none ↔
      ∃ off ∈ offs, ¬ citeMarkerTerminated events off := by
  intro offs
  induction offs with
  | nil => simp [scanCitations]
  | cons off rest ih =>
    rw [scanCitations]
    by_cases hterm : citeMarkerTerminated events off
    · rw [if_pos hterm]
      rcases hs : scanCitations library events rest with _ | ⟨spans, keyss⟩
    
      · constructor
        · intro _
          obtain ⟨o, ho, hno⟩ := ih.mp hs
          exact ⟨o, List.mem_cons_of_mem _ ho, hno⟩
        · intro _
          rfl
      · constructor
        · intro hcontra
          exact absurd hcontra (by simp)
        · rintro ⟨o, ho, hno⟩
          rcases List.mem_cons.mp ho with rfl | ho'
          · exact absurd hterm hno
          · have hn := ih.mpr ⟨o, ho', hno⟩
            rw [hn] at hs
            exact absurd hs (by simp)
    · rw [if_neg hterm]
      constructor
      · intro _
        exact ⟨off, List.mem_cons_self _ _, hterm⟩
      · intro _
        rfl

theorem scanCitations_some_spec (library : List Name) (events : List Event) :
    ∀ {offs : List Nat} {spans : List (Nat × Nat)}
      {keyss : List (List Name)},
      scanCitations library events offs = some (spans, keyss) →
      spans = offs.map (fun off =>
          (off, off + (collectStrings (events.drop (off + 1))).2 + 2)) ∧
      keyss = offs.map
        (fun off => knownKeys library (markerRawText events off)) := by
  intro offs
  induction offs with
  | nil =>
    intro spans keyss h
    rw [scanCitations] at h
    injection h with h'
    injection h' with h1 h2
    exact ⟨h1.symm, h2.symm⟩
  | cons off rest ih =>
    intro spans keyss h
    rw [scanCitations] at h
    by_cases hterm : citeMarkerTerminated events off
    · rw [if_pos hterm] at h
      rcases hs : scanCitations library events rest
        with _ | ⟨spans', keyss'⟩ <;> rw [hs] at h
      · exact absurd h (by simp)
      · injection h with h'
        injection h' with h1 h2
        obtain ⟨ih1, ih2⟩ := ih hs
        rw [List.map_cons, List.map_cons, ← h1, ← h2, ih1, ih2]
        exact ⟨rfl, rfl⟩
    · rw [if_neg hterm] at h
      exact absurd h (by simp)

/-- Claim C6: when every cite marker is well formed (processing completes),
the Nth inline marker in document order yields exactly the Nth non-hidden
citation request — the non-hidden requests are the markers' requests in
document order, never reordered or rebatched — and after all inline
requests every library entry is submitted exactly once as a hidden
request. -/
theorem citation_request_order (library : List Name) (events : List Event)
    (h : ∀ off ∈ offsetsWhere isCiteStart 0 events,
      citeMarkerTerminated events off) :
    ∃ reqs, citeRequests library events = some reqs ∧
      reqs = (offsetsWhere isCiteStart 0 events).map
          (fun off =>
            ⟨knownKeys library (markerRawText events off), false⟩) ++
        library.map (fun k => ⟨[k], true⟩) ∧
      reqs.filter (fun r => !r.hidden) =
        (offsetsWhere isCiteStart 0 events).map
          (fun off =>
            ⟨knownKeys library (markerRawText events off), false⟩) ∧
      reqs.filter (fun r => r.hidden) =
        library.map (fun k => ⟨[k], true⟩) := by
  rcases hs : scanCitations library events
      (offsetsWhere isCiteStart 0 events) with _ | ⟨spans, keyss⟩
  · obtain ⟨o, ho, hno⟩ := (scanCitations_none_iff library events _).mp hs
    exact absurd (h o ho) hno
  · obtain ⟨-, hkeyss⟩ := scanCitations_some_spec library events hs
    refine ⟨keyss.map (fun ks => ⟨ks, false⟩) ++
      library.map (fun k => ⟨[k], true⟩), ?_, ?_, ?_, ?_⟩
    · rw [citeRequests, hs]
    · rw [hkeyss, List.map_map]
      rfl
    · rw [List.filter_append,
        List.filter_eq_self.mpr
          (fun r hr => by
            obtain ⟨ks, -, rfl⟩ := List.mem_map.mp hr
            rfl),
        List.filter_eq_nil_iff.mpr
          (fun r hr => by
            obtain ⟨k, -, rfl⟩ := List.mem_map.mp hr
            simp),
        List.append_nil, hkeyss, List.map_map]
      rfl
    · rw [List.filter_append,
        List.filter_eq_nil_iff.mpr
          (fun r hr => by
            obtain ⟨ks, -, rfl⟩ := List.mem_map.mp hr
            simp),
        List.filter_eq_self.mpr
          (fun r hr => by
            obtain ⟨k, -, rfl⟩ := List.mem_map.mp hr
            rfl),
        List.nil_append]

/-- Witness for C6 at the spec's citation example: markers `[a; b]{=cite}`
and `[c]{=cite}` with library `{a, c, d}` — two non-hidden requests in
marker order (unknown `b` skipped), then one hidden request per entry. -/
theorem citation_request_order_witness :
    citeRequests [['a'], ['c'], ['d']]
        [.start (.rawInline "cite".data), .str "a; b".data,
          .stop (.rawInline "cite".data), .blankline,
          .start (.rawInline "cite".data), .str ['c'],
          .stop (.rawInline "cite".data)] =
      some [⟨[['a']], false⟩, ⟨[['c']], false⟩,
        ⟨[['a']], true⟩, ⟨[['c']], true⟩, ⟨[['d']], true⟩] := by
  obtain ⟨reqs, h1, h2, -, -⟩ := citation_request_order
    [['a'], ['c'], ['d']]
    [.start (.rawInline "cite".data), .str "a; b".data,
      .stop (.rawInline "cite".data), .blankline,
      .start (.rawInline "cite".data), .str ['c'],
      .stop (.rawInline "cite".data)] (by decide)
  rw [h1, h2]
  rfl

theorem handleReferences_some_eq (library : List Name)
    (renderCite : Nat → Name) (bib : Option (List (Name × Name)))
    (bibFile : Name) (events : List Event) :
    handleReferences library renderCite bib (some bibFile) events =
      match scanCitations library events
          (offsetsWhere isCiteStart 0 events) with
      | none => .ok events
      | some (spans, _) =>
        match bib with
        | none => .ok (spliceCitations renderCite 0 0 events spans)
        | some items =>
          .ok (spliceCitations renderCite 0 0 events spans ++
            referenceSection items) := rfl

/-- Claim C10: when some cite marker lacks its matching end event,
citation processing returns success with the event stream wholly
unchanged — no marker (earlier well-formed ones included) is replaced, no
reference section is appended, and no error is reported. -/
theorem malformed_cite_leaves_stream_unchanged (library : List Name)
    (renderCite : Nat → Name) (bib : Option (List (Name × Name)))
    (bibFile : Name) (events : List Event)
    (h : ∃ off ∈ offsetsWhere isCiteStart 0 events,
      ¬ citeMarkerTerminated events off) :
    handleReferences library renderCite bib (some bibFile) events =
      .ok events := by
  rw [handleReferences_some_eq,
    (scanCitations_none_iff library events _).mpr h]

/-- Witness for C10: a document whose only cite marker is never closed. -/
theorem malformed_cite_leaves_stream_unchanged_witness :
    handleReferences [['a']] (fun _ => []) none (some ['b'])
        [.start (.rawInline "cite".data), .str ['a']] =
      .ok [.start (.rawInline "cite".data), .str ['a']] :=
  malformed_cite_leaves_stream_unchanged [['a']] (fun _ => []) none ['b']
    [.start (.rawInline "cite".data), .str ['a']] (by decide)

theorem classifyFile_page_error (path : RelPath) (site : SiteModel)
    (h1 : path.head? = some "content".data)
    (h2 : path.getLast?.map fileStem = some "page".data) :
    classifyFile path site = .error "Cannot have a content page named page" := by
  rw [classifyFile, h1]
  show (if "content".data = "content".data then _ else _) = _
  rw [if_pos rfl, if_pos h2]

/-- Claim C9: a gathered content file whose file stem is `page` (any
extension, any directory level) makes classification fail with a
configuration error, and the whole build aborts before producing any
output. -/
theorem page_stem_aborts_build (files : List RelPath)
    (h : ∃ p ∈ files, p.head? = some "content".data ∧
      p.getLast?.map fileStem = some "page".data) :
    (∃ e, siteParse files = .error e) ∧
    (∃ e, buildOutputPaths files = .error e) := by
  have key : ∀ (fs : List RelPath) (site : SiteModel),
      (∃ p ∈ fs, p.head? = some "content".data ∧
        p.getLast?.map fileStem = some "page".data) →
      ∃ e, siteParseFrom fs site = .error e := by
    intro fs
    induction fs with
    | nil =>
      intro site hex
      obtain ⟨p, hp, -⟩ := hex
      cases hp
    | cons q rest ih =>
      intro site hex
      obtain ⟨p, hp, hp1, hp2⟩ := hex
      rcases List.mem_cons.mp hp with rfl | hp'
      · refine ⟨"Cannot have a content page named page", ?_⟩
        rw [siteParseFrom, classifyFile_page_error p site hp1 hp2]
      · rcases hc : classifyFile q site with e | site'
        · exact ⟨e, by rw [siteParseFrom, hc]⟩
        · obtain ⟨e, he⟩ := ih site' ⟨p, hp', hp1, hp2⟩
          refine ⟨e, ?_⟩
          rw [siteParseFrom, hc]
          exact he
  obtain ⟨e, he⟩ := key files ⟨[], []⟩ h
  refine ⟨⟨e, he⟩, ⟨e, ?_⟩⟩
  rw [buildOutputPaths, siteParse, he]

/-- Witness for C9 at `content/page.md`. -/
theorem page_stem_aborts_build_witness :
    ∃ e, buildOutputPaths [["content".data, "page.md".data]] = .error e :=
  (page_stem_aborts_build [["content".data, "page.md".data]]
    ⟨["content".data, "page.md".data], by decide, by decide, by decide⟩).2

/-- C8, the code evaluated at the failing input: a build that gathers
`static/logo.png` alongside `content/a.dj` succeeds and writes exactly
`a.html` — nothing at all for the static file, under neither its full nor
its stripped relative path. `Site::parse` drops every file outside
`content/` and `templates/` ("Ignoring file not in a known directory"),
and no code path copies `static/`, although `build`'s own step comments
(`build.rs` lines 632-634 and 651-652) state that `static/` files are
copied to the output directory. -/
theorem static_file_not_copied :
    buildOutputPaths
        [["static".data, "logo.png".data], ["content".data, "a.dj".data]] =
      .ok [["a.html".data]] ∧
    ["static".data, "logo.png".data] ∉ [["a.html".data]] ∧
    ["logo.png".data] ∉ [["a.html".data]] :=
  ⟨rfl, by decide, by decide⟩
